import Mathlib

/-!
Shallow embedding of `diffcount.c` (ahroach/diffcount): a tool counting byte
and bit differences between two byte sources (two files, or one file against
a constant byte).  Machine bytes are modelled as `Nat` values `< 256`;
the 64-bit accumulators are modelled as `Nat` (the C counters are
`unsigned long long` and cannot overflow on any realizable input size,
so no `% 2^64` reduction is observable).
-/

/-- `#define BUFSIZE 512*64` (diffcount.c line 21). -/
def BUFSIZE : Nat := 512 * 64

/-- Fuel-driven population count: `popcountAux fuel n` adds `n % 2` and
recurses on `n / 2`.  Structural in the fuel so that concrete instances
reduce in the kernel. -/
def popcountAux : Nat → Nat → Nat
  | 0, _ => 0
  | fuel + 1, n => if n = 0 then 0 else n % 2 + popcountAux fuel (n / 2)

/-- Population count of a natural number: the semantics of the
`_mm_popcnt_u64` / `_mm_popcnt_u32` intrinsics (diffcount.c lines 194, 201). -/
def popcount (n : Nat) : Nat := popcountAux n n

/-- Little-endian load: the value of `*(uint64_t *)p` on x86 when `p` points at
the listed bytes, least significant byte first (diffcount.c lines 189-190). -/
def loadLE (l : List Nat) : Nat := l.foldr (fun b acc => b + 256 * acc) 0

/-- The loop `for (i = 0; i < 8; i++) diff_B += (((quad_xor >> (8*i)) & 0xff) != 0);`
(diffcount.c lines 191-193): number of nonzero bytes of an 8-byte word. -/
def countDiffBytes8 (quad_xor : Nat) : Nat :=
  (List.range 8).foldl
    (fun acc i => acc + if (quad_xor >>> (8 * i)) &&& 0xff ≠ 0 then 1 else 0) 0

/-- One round of the comparison loop body (diffcount.c lines 187-204): the two
buffers hold the `buf_fill` usable bytes; while at least 8 bytes remain the
code XORs 8-byte words and accumulates nonzero-byte count and popcount;
the final < 8 bytes are handled one at a time.  `byte_xor` is a `uint8_t`,
hence the `% 256` truncation.  Returns `(comp_B, diff_B, diff_b)`. -/
def processRound : List Nat → List Nat → Nat → Nat → Nat → Nat × Nat × Nat
  | x0 :: x1 :: x2 :: x3 :: x4 :: x5 :: x6 :: x7 :: r1,
    y0 :: y1 :: y2 :: y3 :: y4 :: y5 :: y6 :: y7 :: r2, comp_B, diff_B, diff_b =>
      let quad_xor := loadLE [x0, x1, x2, x3, x4, x5, x6, x7] ^^^
                      loadLE [y0, y1, y2, y3, y4, y5, y6, y7]
      processRound r1 r2 (comp_B + 8) (diff_B + countDiffBytes8 quad_xor)
        (diff_b + popcount quad_xor)
  | x :: r1, y :: r2, comp_B, diff_B, diff_b =>
      let byte_xor := (x ^^^ y) % 256
      processRound r1 r2 (comp_B + 1) (diff_B + if byte_xor ≠ 0 then 1 else 0)
        (diff_b + popcount byte_xor)
  | _, _, comp_B, diff_B, diff_b => (comp_B, diff_B, diff_b)

/-- `struct diffcount_ctl` (diffcount.c lines 35-45). -/
structure Diffcount_ctl where
  fname_1 : String
  fname_2 : String
  seek_1 : Nat
  seek_2 : Nat
  /-- Maximum number of bytes to compare.  Go to first EOF if zero. -/
  max_len : Nat
  /-- `false`: compare two files; `true`: compare file to constant byte. -/
  const_mode : Bool
  const_val : Nat
deriving DecidableEq

/-- `struct diffcount_res` (diffcount.c lines 48-53). -/
structure Diffcount_res where
  comp_B : Nat
  comp_b : Nat
  diff_B : Nat
  diff_b : Nat
deriving DecidableEq

/-- The read-size computation at the top of `fill_buffers`
(diffcount.c lines 121-128).  The C subtraction is on `unsigned long long`;
the loop maintains `bytes_compared ≤ max_len` whenever `max_len ≠ 0`, so the
truncated `Nat` subtraction agrees with it on every reachable state. -/
def read_size (max_len bytes_compared : Nat) : Nat :=
  if max_len ≠ 0 ∧ max_len - bytes_compared < BUFSIZE then max_len - bytes_compared
  else BUFSIZE

/-- What one call to `fill_buffers` leaves behind: the two buffers, the
remaining (unread) contents of each stream, and the returned fill count. -/
structure FillResult where
  buf_1 : List Nat
  buf_2 : List Nat
  stream_1 : List Nat
  stream_2 : List Nat
  buf_fill : Nat
deriving DecidableEq

/-- `fill_buffers` (diffcount.c lines 114-144).  A stream is modelled by the
list of bytes remaining from the current position; `fread(buf, 1, n, s)`
yields `s.take n` and leaves `s.drop n`.  In constant mode `buf_2` was
filled with `memset(buf_2, const_val, BUFSIZE)` before the loop (line 167)
and stream 2 is never read; only the first `buf_fill ≤ BUFSIZE` entries of
`buf_2` are ever inspected, so it is modelled by the replicate of that
length. -/
def fill_buffers (dc : Diffcount_ctl) (s1 s2 : List Nat)
    (bytes_compared : Nat) : FillResult :=
  let rs := read_size dc.max_len bytes_compared
  let buf1 := s1.take rs
  if dc.const_mode then
    { buf_1 := buf1, buf_2 := List.replicate buf1.length dc.const_val,
      stream_1 := s1.drop rs, stream_2 := s2, buf_fill := buf1.length }
  else
    let buf2 := s2.take rs
    { buf_1 := buf1, buf_2 := buf2,
      stream_1 := s1.drop rs, stream_2 := s2.drop rs,
      buf_fill := min buf1.length buf2.length }

/-- The result record built on normal completion (diffcount.c lines 212-216):
`comp_b = 8*comp_B`. -/
def mkRes (comp_B diff_B diff_b : Nat) : Diffcount_res :=
  { comp_B := comp_B, comp_b := 8 * comp_B, diff_B := diff_B, diff_b := diff_b }

/-- The `while(1)` loop of `diffcount` (diffcount.c lines 170-205), phrased
round by round: refill, stop if `buf_fill == 0`, otherwise process the
`buf_fill` usable bytes and continue.  The fuel argument only forces
termination; every round with a nonzero fill consumes at least one byte of
stream 1, so fuel `s1.length + 1` is never exhausted. -/
def diffcount_loop (dc : Diffcount_ctl) :
    Nat → List Nat → List Nat → Nat → Nat → Nat → Diffcount_res
  | 0, _, _, comp_B, diff_B, diff_b => mkRes comp_B diff_B diff_b
  | fuel + 1, s1, s2, comp_B, diff_B, diff_b =>
      let fr := fill_buffers dc s1 s2 comp_B
      if fr.buf_fill = 0 then mkRes comp_B diff_B diff_b
      else
        let r := processRound (fr.buf_1.take fr.buf_fill) (fr.buf_2.take fr.buf_fill)
                   comp_B diff_B diff_b
        diffcount_loop dc fuel fr.stream_1 fr.stream_2 r.1 r.2.1 r.2.2

/-- The comparison core of `diffcount` (diffcount.c lines 146-219) run on the
post-seek stream contents, with all accumulators starting at zero. -/
def diffcount_core (dc : Diffcount_ctl) (s1 s2 : List Nat) : Diffcount_res :=
  diffcount_loop dc (s1.length + 1) s1 s2 0 0 0

/-- The two fatal error exits of `fopen_and_seek` (diffcount.c lines 87-96). -/
inductive DiffErr where
  | fopenFailed (filename : String)
  | fseekFailed (filename : String)
deriving DecidableEq

/-- The operating-system environment: which paths open successfully (and with
what contents), and which seeks succeed. -/
structure Env where
  files : String → Option (List Nat)
  seek_ok : String → Nat → Bool

/-- `fopen_and_seek` (diffcount.c lines 83-98): failure to open or to seek
exits the program; on success the stream is positioned at `seek`. -/
def fopen_and_seek (env : Env) (filename : String) (seek : Nat) :
    Except DiffErr (List Nat) :=
  match env.files filename with
  | none => Except.error (DiffErr.fopenFailed filename)
  | some contents =>
      if env.seek_ok filename seek then Except.ok (contents.drop seek)
      else Except.error (DiffErr.fseekFailed filename)

/-- `diffcount` (diffcount.c lines 146-219): open and seek stream 1, open and
seek stream 2 only when not in constant mode (lines 157-160), then run the
comparison loop.  A fatal open/seek error aborts before any comparison. -/
def diffcount (env : Env) (dc : Diffcount_ctl) : Except DiffErr Diffcount_res :=
  match fopen_and_seek env dc.fname_1 dc.seek_1 with
  | Except.error e => Except.error e
  | Except.ok s1 =>
      if dc.const_mode then Except.ok (diffcount_core dc s1 [])
      else
        match fopen_and_seek env dc.fname_2 dc.seek_2 with
        | Except.error e => Except.error e
        | Except.ok s2 => Except.ok (diffcount_core dc s1 s2)

/-- A list of machine bytes: every entry fits in a `uint8_t`. -/
def Bytes (l : List Nat) : Prop := ∀ b ∈ l, b < 256

instance : DecidablePred Bytes := fun l =>
  inferInstanceAs (Decidable (∀ b ∈ l, b < 256))

/-- Modelled from the spec: the differing-byte count of a naive byte-by-byte
XOR over two equal-length byte sequences. -/
def naive_diff_B : List Nat → List Nat → Nat
  | x :: xs, y :: ys => (if x ^^^ y ≠ 0 then 1 else 0) + naive_diff_B xs ys
  | _, _ => 0

/-- Modelled from the spec: the differing-bit count of a naive byte-by-byte
XOR/popcount over two equal-length byte sequences. -/
def naive_diff_b : List Nat → List Nat → Nat
  | x :: xs, y :: ys => popcount (x ^^^ y) + naive_diff_b xs ys
  | _, _ => 0

/-- The number of bytes the comparison covers, starting from `c` bytes already
compared: the shorter stream bounds it, and a nonzero `max_len` caps it. -/
def remLen (dc : Diffcount_ctl) (c : Nat) (s1 s2 : List Nat) : Nat :=
  let m := if dc.const_mode then s1.length else min s1.length s2.length
  if dc.max_len = 0 then m else min (dc.max_len - c) m

/-- The contents buffer 2 effectively provides over the compared region. -/
def buf2Src (dc : Diffcount_ctl) (s2 : List Nat) (n : Nat) : List Nat :=
  if dc.const_mode then List.replicate n dc.const_val else s2.take n

theorem popcountAux_zero (f : Nat) : popcountAux f 0 = 0 := by
  cases f <;> simp [popcountAux]

theorem popcountAux_congr :
    ∀ f1 n f2, n ≤ f1 → n ≤ f2 → popcountAux f1 n = popcountAux f2 n := by
  intro f1
  induction f1 with
  | zero =>
      intro n f2 h1 _
      have hn : n = 0 := Nat.le_zero.mp h1
      subst hn
      rw [popcountAux_zero, popcountAux_zero]
  | succ f ih =>
      intro n f2 h1 h2
      by_cases hn : n = 0
      · subst hn; rw [popcountAux_zero, popcountAux_zero]
      · cases f2 with
        | zero => omega
        | succ g =>
            simp only [popcountAux, hn, if_false]
            have hd : n / 2 ≤ f := by omega
            have hd' : n / 2 ≤ g := by omega
            rw [ih (n / 2) g hd hd']

theorem popcount_rec (n : Nat) : popcount n = n % 2 + popcount (n / 2) := by
  by_cases hn : n = 0
  · subst hn; simp [popcount, popcountAux]
  · cases n with
    | zero => omega
    | succ m =>
        show popcountAux (m + 1) (m + 1) = _
        simp only [popcountAux, Nat.succ_ne_zero, if_false]
        have h : (m + 1) / 2 ≤ m := by omega
        rw [popcountAux_congr m ((m + 1) / 2) ((m + 1) / 2) h (Nat.le_refl _)]
        rfl

theorem popcount_zero : popcount 0 = 0 := rfl

theorem popcount_concat (k : Nat) :
    ∀ a x : Nat, a < 2 ^ k → popcount (a + 2 ^ k * x) = popcount a + popcount x := by
  induction k with
  | zero =>
      intro a x ha
      have : a = 0 := by omega
      subst this
      simp [popcount_zero]
  | succ k ih =>
      intro a x ha
      have hpow : 2 ^ (k + 1) * x = 2 * (2 ^ k * x) := by ring
      have hpow' : 2 ^ (k + 1) = 2 * 2 ^ k := by ring
      rw [popcount_rec (a + 2 ^ (k + 1) * x), popcount_rec a, hpow]
      rw [hpow'] at ha
      have hm : (a + 2 * (2 ^ k * x)) % 2 = a % 2 := by omega
      have hd : (a + 2 * (2 ^ k * x)) / 2 = a / 2 + 2 ^ k * x := by omega
      have hlt : a / 2 < 2 ^ k := by omega
      rw [hm, hd, ih (a / 2) x hlt]
      omega

theorem popcount_le (k : Nat) : ∀ n : Nat, n < 2 ^ k → popcount n ≤ k := by
  induction k with
  | zero =>
      intro n h
      have hn : n = 0 := by omega
      subst hn
      simp [popcount_zero]
  | succ k ih =>
      intro n h
      have hpow : 2 ^ (k + 1) = 2 * 2 ^ k := by ring
      rw [hpow] at h
      have hd : n / 2 < 2 ^ k := by omega
      have hle := ih (n / 2) hd
      rw [popcount_rec n]
      omega

theorem popcount_pos (n : Nat) (h : n ≠ 0) : 1 ≤ popcount n := by
  induction n using Nat.strong_induction_on with
  | _ n ih =>
      rw [popcount_rec n]
      by_cases hm : n % 2 = 1
      · omega
      · have hd : n / 2 ≠ 0 := by omega
        have hlt : n / 2 < n := by omega
        have := ih (n / 2) hlt hd
        omega

theorem testBit_add_mul256 (a x i : Nat) (ha : a < 256) :
    (a + 256 * x).testBit i =
      if i < 8 then a.testBit i else x.testBit (i - 8) := by
  by_cases hi : i < 8
  · simp only [hi, if_true, Nat.testBit_to_div_mod]
    rw [decide_eq_decide]
    interval_cases i <;> omega
  · simp only [hi, if_false, Nat.testBit_to_div_mod]
    rw [decide_eq_decide]
    obtain ⟨j, rfl⟩ : ∃ j, i = 8 + j := ⟨i - 8, by omega⟩
    have hsplit : (a + 256 * x) / 2 ^ (8 + j) = x / 2 ^ j := by
      rw [pow_add, ← Nat.div_div_eq_div_mul]
      have h256 : (a + 256 * x) / 2 ^ 8 = x := by omega
      rw [h256]
    rw [hsplit]
    have hj : 8 + j - 8 = j := by omega
    rw [hj]

theorem concat_xor (a b x y : Nat) (ha : a < 256) (hb : b < 256) :
    (a + 256 * x) ^^^ (b + 256 * y) = (a ^^^ b) + 256 * (x ^^^ y) := by
  have hab : a ^^^ b < 256 := by
    have ha8 : a < 2 ^ 8 := by norm_num at *; omega
    have hb8 : b < 2 ^ 8 := by norm_num at *; omega
    have h := Nat.xor_lt_two_pow ha8 hb8
    norm_num at h
    exact h
  apply Nat.eq_of_testBit_eq
  intro i
  rw [Nat.testBit_xor, testBit_add_mul256 a x i ha, testBit_add_mul256 b y i hb,
      testBit_add_mul256 (a ^^^ b) (x ^^^ y) i hab]
  by_cases hi : i < 8
  · simp [hi, Nat.testBit_xor]
  · simp [hi, Nat.testBit_xor]

theorem loadLE_nil : loadLE [] = 0 := rfl

theorem loadLE_cons (b : Nat) (l : List Nat) :
    loadLE (b :: l) = b + 256 * loadLE l := rfl

theorem Bytes_nil : Bytes [] := by intro b hb; cases hb

theorem Bytes_cons {x : Nat} {l : List Nat} :
    Bytes (x :: l) ↔ x < 256 ∧ Bytes l := by
  simp [Bytes]

theorem loadLE_xor :
    ∀ xs ys : List Nat, xs.length = ys.length → Bytes xs → Bytes ys →
      loadLE xs ^^^ loadLE ys = loadLE (List.zipWith (· ^^^ ·) xs ys) := by
  intro xs
  induction xs with
  | nil =>
      intro ys hl _ _
      have : ys = [] := List.eq_nil_of_length_eq_zero hl.symm
      subst this
      simp [loadLE_nil]
  | cons x xs ih =>
      intro ys hl hx hy
      cases ys with
      | nil => simp at hl
      | cons y ys =>
          obtain ⟨hx1, hx2⟩ := Bytes_cons.mp hx
          obtain ⟨hy1, hy2⟩ := Bytes_cons.mp hy
          simp only [List.zipWith_cons_cons, loadLE_cons]
          rw [concat_xor x y (loadLE xs) (loadLE ys) hx1 hy1]
          rw [ih ys (by simpa using hl) hx2 hy2]

theorem land255_eq_mod (n : Nat) : n &&& 255 = n % 256 := by
  have h255 : (255 : Nat) = 2 ^ 8 - 1 := by norm_num
  have h256 : (256 : Nat) = 2 ^ 8 := by norm_num
  rw [h255, h256]
  apply Nat.eq_of_testBit_eq
  intro i
  rw [Nat.testBit_and, Nat.testBit_two_pow_sub_one, Nat.testBit_mod_two_pow]
  rw [Bool.and_comm]

theorem loadLE_land255 (b : Nat) (l : List Nat) (hb : b < 256) :
    loadLE (b :: l) &&& 255 = b := by
  rw [land255_eq_mod, loadLE_cons, Nat.add_mul_mod_self_left, Nat.mod_eq_of_lt hb]

theorem loadLE_shiftRight8 (b : Nat) (l : List Nat) (hb : b < 256) :
    loadLE (b :: l) >>> 8 = loadLE l := by
  rw [Nat.shiftRight_eq_div_pow, loadLE_cons]
  have h : (2 : Nat) ^ 8 = 256 := by norm_num
  rw [h]
  omega

theorem loadLE_extract :
    ∀ (i : Nat) (l : List Nat), Bytes l →
      (loadLE l >>> (8 * i)) &&& 255 = l.getD i 0 := by
  intro i
  induction i with
  | zero =>
      intro l hl
      rw [Nat.mul_zero, Nat.shiftRight_zero]
      cases l with
      | nil => simp [loadLE_nil, land255_eq_mod]
      | cons b t => exact loadLE_land255 b t ((Bytes_cons.mp hl).1)
  | succ i ih =>
      intro l hl
      cases l with
      | nil =>
          simp [loadLE_nil, land255_eq_mod]
      | cons b t =>
          have h8 : 8 * (i + 1) = 8 + 8 * i := by ring
          rw [h8, Nat.shiftRight_add, loadLE_shiftRight8 b t ((Bytes_cons.mp hl).1)]
          simpa using ih t (Bytes_cons.mp hl).2

theorem popcount_loadLE : ∀ l : List Nat, Bytes l →
    popcount (loadLE l) = (l.map popcount).sum := by
  intro l
  induction l with
  | nil => simp [loadLE_nil, popcount_zero]
  | cons b t ih =>
      intro hl
      obtain ⟨hb, ht⟩ := Bytes_cons.mp hl
      rw [loadLE_cons]
      have h256 : (256 : Nat) = 2 ^ 8 := by norm_num
      rw [h256, popcount_concat 8 b (loadLE t) (by omega), ih ht]
      simp

theorem xor_lt_256 {x y : Nat} (hx : x < 256) (hy : y < 256) : x ^^^ y < 256 := by
  have hx8 : x < 2 ^ 8 := by norm_num; omega
  have hy8 : y < 2 ^ 8 := by norm_num; omega
  have h := Nat.xor_lt_two_pow hx8 hy8
  norm_num at h
  exact h

theorem xor_mod256 {x y : Nat} (hx : x < 256) (hy : y < 256) :
    (x ^^^ y) % 256 = x ^^^ y :=
  Nat.mod_eq_of_lt (xor_lt_256 hx hy)

theorem countDiffBytes8_spec (z0 z1 z2 z3 z4 z5 z6 z7 : Nat)
    (h : Bytes [z0, z1, z2, z3, z4, z5, z6, z7]) :
    countDiffBytes8 (loadLE [z0, z1, z2, z3, z4, z5, z6, z7]) =
      (if z0 ≠ 0 then 1 else 0) + (if z1 ≠ 0 then 1 else 0) +
      (if z2 ≠ 0 then 1 else 0) + (if z3 ≠ 0 then 1 else 0) +
      (if z4 ≠ 0 then 1 else 0) + (if z5 ≠ 0 then 1 else 0) +
      (if z6 ≠ 0 then 1 else 0) + (if z7 ≠ 0 then 1 else 0) := by
  have he : ∀ i, (loadLE [z0, z1, z2, z3, z4, z5, z6, z7] >>> (8 * i)) &&& 255 =
      [z0, z1, z2, z3, z4, z5, z6, z7].getD i 0 :=
    fun i => loadLE_extract i _ h
  simp only [countDiffBytes8]
  rw [show List.range 8 = [0, 1, 2, 3, 4, 5, 6, 7] from rfl]
  simp only [List.foldl, he, List.getD_cons_zero, List.getD_cons_succ]
  omega

theorem popcount_loadLE8 (z0 z1 z2 z3 z4 z5 z6 z7 : Nat)
    (h : Bytes [z0, z1, z2, z3, z4, z5, z6, z7]) :
    popcount (loadLE [z0, z1, z2, z3, z4, z5, z6, z7]) =
      popcount z0 + popcount z1 + popcount z2 + popcount z3 +
      popcount z4 + popcount z5 + popcount z6 + popcount z7 := by
  rw [popcount_loadLE _ h]
  simp only [List.map, List.sum_cons, List.sum_nil]
  omega

theorem processRound_spec :
    ∀ (b1 b2 : List Nat) (c dB db : Nat), Bytes b1 → Bytes b2 →
      b1.length = b2.length →
      processRound b1 b2 c dB db =
        (c + b1.length, dB + naive_diff_B b1 b2, db + naive_diff_b b1 b2) := by
  intro b1 b2 c dB db
  induction b1, b2, c, dB, db using processRound.induct with
  | case1 x0 x1 x2 x3 x4 x5 x6 x7 r1 y0 y1 y2 y3 y4 y5 y6 y7 r2 c dB db qx ih =>
      intro hx hy hl
      simp only [Bytes_cons] at hx hy
      obtain ⟨hx0, hx1, hx2, hx3, hx4, hx5, hx6, hx7, hxr⟩ := hx
      obtain ⟨hy0, hy1, hy2, hy3, hy4, hy5, hy6, hy7, hyr⟩ := hy
      have hl' : r1.length = r2.length := by
        simp only [List.length_cons] at hl
        omega
      rw [processRound.eq_1]
      have hq : loadLE [x0, x1, x2, x3, x4, x5, x6, x7] ^^^
          loadLE [y0, y1, y2, y3, y4, y5, y6, y7] =
          loadLE [x0 ^^^ y0, x1 ^^^ y1, x2 ^^^ y2, x3 ^^^ y3,
                  x4 ^^^ y4, x5 ^^^ y5, x6 ^^^ y6, x7 ^^^ y7] := by
        rw [loadLE_xor _ _ (by simp) (by simp [Bytes_cons, Bytes_nil] <;> omega)
            (by simp [Bytes_cons, Bytes_nil] <;> omega)]
        simp [List.zipWith]
      have hz : Bytes [x0 ^^^ y0, x1 ^^^ y1, x2 ^^^ y2, x3 ^^^ y3,
                       x4 ^^^ y4, x5 ^^^ y5, x6 ^^^ y6, x7 ^^^ y7] := by
        simp only [Bytes_cons, Bytes_nil, and_true]
        exact ⟨xor_lt_256 hx0 hy0, xor_lt_256 hx1 hy1, xor_lt_256 hx2 hy2,
               xor_lt_256 hx3 hy3, xor_lt_256 hx4 hy4, xor_lt_256 hx5 hy5,
               xor_lt_256 hx6 hy6, xor_lt_256 hx7 hy7⟩
      rw [hq, countDiffBytes8_spec _ _ _ _ _ _ _ _ hz, popcount_loadLE8 _ _ _ _ _ _ _ _ hz]
      have ih' := ih hxr hyr hl'
      have hqx : qx = loadLE [x0, x1, x2, x3, x4, x5, x6, x7] ^^^
          loadLE [y0, y1, y2, y3, y4, y5, y6, y7] := rfl
      rw [hqx, hq, countDiffBytes8_spec _ _ _ _ _ _ _ _ hz,
          popcount_loadLE8 _ _ _ _ _ _ _ _ hz] at ih'
      rw [ih']
      simp only [naive_diff_B, naive_diff_b, List.length_cons, Prod.mk.injEq]
      refine ⟨by omega, by omega, by omega⟩
  | case2 x r1 y r2 c dB db hexcl bx ih =>
      intro hx hy hl
      simp only [Bytes_cons] at hx hy
      obtain ⟨hx0, hxr⟩ := hx
      obtain ⟨hy0, hyr⟩ := hy
      have hl' : r1.length = r2.length := by
        simp only [List.length_cons] at hl
        omega
      rw [processRound.eq_2 _ _ _ _ _ _ _ hexcl]
      have ih' := ih hxr hyr hl'
      have hbx : bx = (x ^^^ y) % 256 := rfl
      rw [hbx] at ih'
      rw [ih']
      have hm : (x ^^^ y) % 256 = x ^^^ y := xor_mod256 hx0 hy0
      simp only [hm, naive_diff_B, naive_diff_b, List.length_cons, Prod.mk.injEq]
      refine ⟨by omega, by omega, by omega⟩
  | case3 b1 b2 c dB db hexcl1 hexcl2 =>
      intro hx hy hl
      rw [processRound.eq_3 _ _ _ _ _ hexcl1 hexcl2]
      cases b1 with
      | cons a t =>
          cases b2 with
          | cons a' t' => exact (hexcl2 a t a' t' rfl rfl).elim
          | nil => simp at hl
      | nil =>
          have hb2 : b2 = [] := List.eq_nil_of_length_eq_zero hl.symm
          subst hb2
          simp [naive_diff_B, naive_diff_b]

theorem read_size_eq (ml c : Nat) :
    read_size ml c = if ml = 0 then BUFSIZE else min BUFSIZE (ml - c) := by
  unfold read_size BUFSIZE
  split_ifs <;> omega

theorem Bytes_take (l : List Nat) (n : Nat) (h : Bytes l) : Bytes (l.take n) :=
  fun b hb => h b (List.take_subset n l hb)

theorem Bytes_drop (l : List Nat) (n : Nat) (h : Bytes l) : Bytes (l.drop n) :=
  fun b hb => h b (List.drop_subset n l hb)

theorem Bytes_replicate (n v : Nat) (h : v < 256) : Bytes (List.replicate n v) := by
  intro b hb
  rw [List.eq_of_mem_replicate hb]
  exact h

theorem naive_diff_B_append :
    ∀ (a1 a2 b1 b2 : List Nat), a1.length = a2.length →
      naive_diff_B (a1 ++ b1) (a2 ++ b2) = naive_diff_B a1 a2 + naive_diff_B b1 b2 := by
  intro a1
  induction a1 with
  | nil =>
      intro a2 b1 b2 hl
      have : a2 = [] := List.eq_nil_of_length_eq_zero hl.symm
      subst this
      simp [naive_diff_B]
  | cons x xs ih =>
      intro a2 b1 b2 hl
      cases a2 with
      | nil => simp at hl
      | cons y ys =>
          simp only [List.cons_append, naive_diff_B, List.append_eq]
          rw [ih ys b1 b2 (by simpa using hl)]
          omega

theorem naive_diff_b_append :
    ∀ (a1 a2 b1 b2 : List Nat), a1.length = a2.length →
      naive_diff_b (a1 ++ b1) (a2 ++ b2) = naive_diff_b a1 a2 + naive_diff_b b1 b2 := by
  intro a1
  induction a1 with
  | nil =>
      intro a2 b1 b2 hl
      have : a2 = [] := List.eq_nil_of_length_eq_zero hl.symm
      subst this
      simp [naive_diff_b]
  | cons x xs ih =>
      intro a2 b1 b2 hl
      cases a2 with
      | nil => simp at hl
      | cons y ys =>
          simp only [List.cons_append, naive_diff_b, List.append_eq]
          rw [ih ys b1 b2 (by simpa using hl)]
          omega

theorem diffcount_loop_spec_file (dc : Diffcount_ctl) (hc : dc.const_mode = false) :
    ∀ (fuel : Nat) (s1 s2 : List Nat) (c dB db : Nat),
      s1.length < fuel → Bytes s1 → Bytes s2 →
      (dc.max_len ≠ 0 → c ≤ dc.max_len) →
      diffcount_loop dc fuel s1 s2 c dB db =
        mkRes (c + remLen dc c s1 s2)
          (dB + naive_diff_B (s1.take (remLen dc c s1 s2)) (s2.take (remLen dc c s1 s2)))
          (db + naive_diff_b (s1.take (remLen dc c s1 s2)) (s2.take (remLen dc c s1 s2))) := by
  intro fuel
  induction fuel with
  | zero =>
      intro s1 s2 c dB db hf
      omega
  | succ fuel ih =>
      intro s1 s2 c dB db hf hb1 hb2 hml
      have hrs := read_size_eq dc.max_len c
      set rs := read_size dc.max_len c with hrsdef
      have hN : remLen dc c s1 s2 =
          if dc.max_len = 0 then min s1.length s2.length
          else min (dc.max_len - c) (min s1.length s2.length) := by
        simp [remLen, hc]
      simp only [diffcount_loop, fill_buffers, hc, Bool.false_eq_true, if_false,
        ← hrsdef, List.length_take]
      by_cases hfill : min (min rs s1.length) (min rs s2.length) = 0
      · rw [if_pos hfill]
        have hn0 : remLen dc c s1 s2 = 0 := by
          rw [hN]
          unfold BUFSIZE at hrs
          split_ifs at hrs ⊢ <;> omega
        rw [hn0]
        simp [naive_diff_B, naive_diff_b]
      · rw [if_neg hfill]
        set F := min (min rs s1.length) (min rs s2.length) with hFdef
        have hF1 : (s1.take rs).take F = s1.take F := by
          rw [List.take_take]
          congr 1
          omega
        have hF2 : (s2.take rs).take F = s2.take F := by
          rw [List.take_take]
          congr 1
          omega
        rw [hF1, hF2]
        have hlen1 : (s1.take F).length = F := by
          rw [List.length_take]
          omega
        have hlen2 : (s2.take F).length = F := by
          rw [List.length_take]
          omega
        rw [processRound_spec _ _ c dB db (Bytes_take _ _ hb1) (Bytes_take _ _ hb2)
            (by rw [hlen1, hlen2])]
        rw [hlen1]
        have hrs1 : 1 ≤ rs := by omega
        have hdl1 : (s1.drop rs).length < fuel := by
          rw [List.length_drop]
          omega
        have hml' : dc.max_len ≠ 0 → c + F ≤ dc.max_len := by
          intro h0
          rw [if_neg h0] at hrs
          omega
        rw [ih (s1.drop rs) (s2.drop rs) (c + F) _ _ hdl1
            (Bytes_drop _ _ hb1) (Bytes_drop _ _ hb2) hml']
        have hN' : remLen dc (c + F) (s1.drop rs) (s2.drop rs) =
            if dc.max_len = 0 then min (s1.length - rs) (s2.length - rs)
            else min (dc.max_len - (c + F)) (min (s1.length - rs) (s2.length - rs)) := by
          simp [remLen, hc, List.length_drop]
        set n := remLen dc c s1 s2 with hndef
        set n' := remLen dc (c + F) (s1.drop rs) (s2.drop rs) with hn'def
        have hsplit : n = F + n' := by
          rw [hN, hN']
          unfold BUFSIZE at hrs
          split_ifs at hrs ⊢ <;> omega
        have htail : n' ≠ 0 → F = rs := by
          intro hn'0
          rw [hN'] at hn'0
          unfold BUFSIZE at hrs
          split_ifs at hrs hn'0 <;> omega
        have htake1 : s1.take n = s1.take F ++ (s1.drop rs).take n' := by
          by_cases hn'0 : n' = 0
          · rw [hn'0] at hsplit
            rw [hsplit, hn'0]
            simp
          · rw [htail hn'0] at hsplit ⊢
            rw [hsplit, List.take_add]
        have htake2 : s2.take n = s2.take F ++ (s2.drop rs).take n' := by
          by_cases hn'0 : n' = 0
          · rw [hn'0] at hsplit
            rw [hsplit, hn'0]
            simp
          · rw [htail hn'0] at hsplit ⊢
            rw [hsplit, List.take_add]
        rw [htake1, htake2,
            naive_diff_B_append _ _ _ _ (by rw [hlen1, hlen2]),
            naive_diff_b_append _ _ _ _ (by rw [hlen1, hlen2])]
        simp only [mkRes, Diffcount_res.mk.injEq]
        refine ⟨by omega, by omega, by omega, by omega⟩

theorem diffcount_loop_spec_const (dc : Diffcount_ctl) (hc : dc.const_mode = true) :
    ∀ (fuel : Nat) (s1 s2 : List Nat) (c dB db : Nat),
      s1.length < fuel → Bytes s1 → dc.const_val < 256 →
      (dc.max_len ≠ 0 → c ≤ dc.max_len) →
      diffcount_loop dc fuel s1 s2 c dB db =
        mkRes (c + remLen dc c s1 s2)
          (dB + naive_diff_B (s1.take (remLen dc c s1 s2))
                  (List.replicate (remLen dc c s1 s2) dc.const_val))
          (db + naive_diff_b (s1.take (remLen dc c s1 s2))
                  (List.replicate (remLen dc c s1 s2) dc.const_val)) := by
  intro fuel
  induction fuel with
  | zero =>
      intro s1 s2 c dB db hf
      omega
  | succ fuel ih =>
      intro s1 s2 c dB db hf hb1 hcv hml
      have hrs := read_size_eq dc.max_len c
      set rs := read_size dc.max_len c with hrsdef
      have hN : remLen dc c s1 s2 =
          if dc.max_len = 0 then s1.length
          else min (dc.max_len - c) s1.length := by
        simp [remLen, hc]
      simp only [diffcount_loop, fill_buffers, hc, if_true, ← hrsdef, List.length_take]
      by_cases hfill : min rs s1.length = 0
      · rw [if_pos hfill]
        have hn0 : remLen dc c s1 s2 = 0 := by
          rw [hN]
          unfold BUFSIZE at hrs
          split_ifs at hrs ⊢ <;> omega
        rw [hn0]
        simp [naive_diff_B, naive_diff_b]
      · rw [if_neg hfill]
        set F := min rs s1.length with hFdef
        have hF1 : (s1.take rs).take F = s1.take F := by
          rw [List.take_take]
          congr 1
          omega
        have hFrep : (List.replicate F dc.const_val).take F =
            List.replicate F dc.const_val := by
          rw [List.take_replicate]
          congr 1
          omega
        rw [hF1, hFrep]
        have hlen1 : (s1.take F).length = F := by
          rw [List.length_take]
          omega
        rw [processRound_spec _ _ c dB db (Bytes_take _ _ hb1)
            (Bytes_replicate _ _ hcv)
            (by rw [hlen1, List.length_replicate])]
        rw [hlen1]
        have hrs1 : 1 ≤ rs := by omega
        have hdl1 : (s1.drop rs).length < fuel := by
          rw [List.length_drop]
          omega
        have hml' : dc.max_len ≠ 0 → c + F ≤ dc.max_len := by
          intro h0
          rw [if_neg h0] at hrs
          omega
        rw [ih (s1.drop rs) s2 (c + F) _ _ hdl1 (Bytes_drop _ _ hb1) hcv hml']
        have hN' : remLen dc (c + F) (s1.drop rs) s2 =
            if dc.max_len = 0 then s1.length - rs
            else min (dc.max_len - (c + F)) (s1.length - rs) := by
          simp [remLen, hc, List.length_drop]
        set n := remLen dc c s1 s2 with hndef
        set n' := remLen dc (c + F) (s1.drop rs) s2 with hn'def
        have hsplit : n = F + n' := by
          rw [hN, hN']
          unfold BUFSIZE at hrs
          split_ifs at hrs ⊢ <;> omega
        have htail : n' ≠ 0 → F = rs := by
          intro hn'0
          rw [hN'] at hn'0
          unfold BUFSIZE at hrs
          split_ifs at hrs hn'0 <;> omega
        have htake1 : s1.take n = s1.take F ++ (s1.drop rs).take n' := by
          by_cases hn'0 : n' = 0
          · rw [hn'0] at hsplit
            rw [hsplit, hn'0]
            simp
          · rw [htail hn'0] at hsplit ⊢
            rw [hsplit, List.take_add]
        have hrep : List.replicate n dc.const_val =
            List.replicate F dc.const_val ++ List.replicate n' dc.const_val := by
          rw [hsplit, List.replicate_add]
        rw [htake1, hrep,
            naive_diff_B_append _ _ _ _ (by rw [hlen1, List.length_replicate]),
            naive_diff_b_append _ _ _ _ (by rw [hlen1, List.length_replicate])]
        simp only [mkRes, Diffcount_res.mk.injEq]
        refine ⟨by omega, by omega, by omega, by omega⟩

theorem diffcount_core_spec_file (dc : Diffcount_ctl) (s1 s2 : List Nat)
    (hc : dc.const_mode = false) (hb1 : Bytes s1) (hb2 : Bytes s2) :
    diffcount_core dc s1 s2 =
      mkRes (remLen dc 0 s1 s2)
        (naive_diff_B (s1.take (remLen dc 0 s1 s2)) (s2.take (remLen dc 0 s1 s2)))
        (naive_diff_b (s1.take (remLen dc 0 s1 s2)) (s2.take (remLen dc 0 s1 s2))) := by
  unfold diffcount_core
  rw [diffcount_loop_spec_file dc hc (s1.length + 1) s1 s2 0 0 0
      (by omega) hb1 hb2 (fun _ => Nat.zero_le _)]
  simp

theorem diffcount_core_spec_const (dc : Diffcount_ctl) (s1 s2 : List Nat)
    (hc : dc.const_mode = true) (hb1 : Bytes s1) (hcv : dc.const_val < 256) :
    diffcount_core dc s1 s2 =
      mkRes (remLen dc 0 s1 s2)
        (naive_diff_B (s1.take (remLen dc 0 s1 s2))
          (List.replicate (remLen dc 0 s1 s2) dc.const_val))
        (naive_diff_b (s1.take (remLen dc 0 s1 s2))
          (List.replicate (remLen dc 0 s1 s2) dc.const_val)) := by
  unfold diffcount_core
  rw [diffcount_loop_spec_const dc hc (s1.length + 1) s1 s2 0 0 0
      (by omega) hb1 hcv (fun _ => Nat.zero_le _)]
  simp

theorem naive_diff_B_le_length :
    ∀ l1 l2 : List Nat, naive_diff_B l1 l2 ≤ l1.length := by
  intro l1
  induction l1 with
  | nil => intro l2; simp [naive_diff_B]
  | cons x xs ih =>
      intro l2
      cases l2 with
      | nil => simp [naive_diff_B]
      | cons y ys =>
          simp only [naive_diff_B, List.length_cons]
          have := ih ys
          split_ifs <;> omega

theorem naive_diff_b_le_8_length :
    ∀ l1 l2 : List Nat, Bytes l1 → Bytes l2 →
      naive_diff_b l1 l2 ≤ 8 * l1.length := by
  intro l1
  induction l1 with
  | nil => intro l2 _ _; simp [naive_diff_b]
  | cons x xs ih =>
      intro l2 hb1 hb2
      cases l2 with
      | nil => simp [naive_diff_b]
      | cons y ys =>
          simp only [naive_diff_b, List.length_cons]
          obtain ⟨hx, hxs⟩ := Bytes_cons.mp hb1
          obtain ⟨hy, hys⟩ := Bytes_cons.mp hb2
          have h1 := ih ys hxs hys
          have h2 : popcount (x ^^^ y) ≤ 8 := by
            apply popcount_le 8
            have := xor_lt_256 hx hy
            norm_num
            omega
          omega

theorem naive_diff_B_le_diff_b :
    ∀ l1 l2 : List Nat, naive_diff_B l1 l2 ≤ naive_diff_b l1 l2 := by
  intro l1
  induction l1 with
  | nil => intro l2; simp [naive_diff_B, naive_diff_b]
  | cons x xs ih =>
      intro l2
      cases l2 with
      | nil => simp [naive_diff_B, naive_diff_b]
      | cons y ys =>
          simp only [naive_diff_B, naive_diff_b]
          have h1 := ih ys
          split_ifs with hxy
          · have := popcount_pos (x ^^^ y) hxy
            omega
          · omega

theorem naive_diff_b_le_8_diff_B :
    ∀ l1 l2 : List Nat, Bytes l1 → Bytes l2 →
      naive_diff_b l1 l2 ≤ 8 * naive_diff_B l1 l2 := by
  intro l1
  induction l1 with
  | nil => intro l2 _ _; simp [naive_diff_B, naive_diff_b]
  | cons x xs ih =>
      intro l2 hb1 hb2
      cases l2 with
      | nil => simp [naive_diff_B, naive_diff_b]
      | cons y ys =>
          simp only [naive_diff_B, naive_diff_b]
          obtain ⟨hx, hxs⟩ := Bytes_cons.mp hb1
          obtain ⟨hy, hys⟩ := Bytes_cons.mp hb2
          have h1 := ih ys hxs hys
          split_ifs with hxy
          · have h2 : popcount (x ^^^ y) ≤ 8 := by
              apply popcount_le 8
              have := xor_lt_256 hx hy
              norm_num
              omega
            omega
          · have hxy0 : x ^^^ y = 0 := by omega
            rw [hxy0, popcount_zero]
            omega

theorem naive_diff_B_self : ∀ l : List Nat, naive_diff_B l l = 0 := by
  intro l
  induction l with
  | nil => simp [naive_diff_B]
  | cons x xs ih => simp [naive_diff_B, Nat.xor_self, ih]

theorem naive_diff_b_self : ∀ l : List Nat, naive_diff_b l l = 0 := by
  intro l
  induction l with
  | nil => simp [naive_diff_b]
  | cons x xs ih => simp [naive_diff_b, Nat.xor_self, ih, popcount_zero]

theorem xor_complement (x : Nat) : x ^^^ (x ^^^ 255) = 255 := by
  rw [← Nat.xor_assoc, Nat.xor_self, Nat.zero_xor]

theorem naive_diff_B_complement :
    ∀ l : List Nat, naive_diff_B l (l.map (fun b => b ^^^ 255)) = l.length := by
  intro l
  induction l with
  | nil => simp [naive_diff_B]
  | cons x xs ih =>
      simp only [List.map_cons, naive_diff_B, List.length_cons, xor_complement, ih]
      simp only [ne_eq, OfNat.ofNat_ne_zero, not_false_eq_true, if_true]
      omega

theorem naive_diff_b_complement :
    ∀ l : List Nat, naive_diff_b l (l.map (fun b => b ^^^ 255)) = 8 * l.length := by
  intro l
  induction l with
  | nil => simp [naive_diff_b]
  | cons x xs ih =>
      simp only [List.map_cons, naive_diff_b, List.length_cons, xor_complement, ih]
      have : popcount 255 = 8 := by decide
      omega

/-- C1: for every pair of byte sequences of equal length (including lengths
that are not a multiple of 8), the 8-bytes-at-a-time XOR/popcount computation
of the comparison loop body produces exactly the same differing-byte and
differing-bit counts as a naive byte-by-byte XOR/popcount over the same
bytes. -/
theorem claim_chunked_matches_naive (b1 b2 : List Nat)
    (h1 : Bytes b1) (h2 : Bytes b2) (hl : b1.length = b2.length) :
    processRound b1 b2 0 0 0 =
      (b1.length, naive_diff_B b1 b2, naive_diff_b b1 b2) := by
  rw [processRound_spec b1 b2 0 0 0 h1 h2 hl]
  simp

theorem claim_chunked_matches_naive_witness :
    Bytes [0, 1, 255, 7, 8, 9, 250, 11, 12, 13, 14] ∧
    processRound [0, 1, 255, 7, 8, 9, 250, 11, 12, 13, 14]
        [255, 1, 0, 7, 9, 9, 250, 11, 13, 13, 15] 0 0 0 =
      (11, naive_diff_B [0, 1, 255, 7, 8, 9, 250, 11, 12, 13, 14]
             [255, 1, 0, 7, 9, 9, 250, 11, 13, 13, 15],
           naive_diff_b [0, 1, 255, 7, 8, 9, 250, 11, 12, 13, 14]
             [255, 1, 0, 7, 9, 9, 250, 11, 13, 13, 15]) :=
  ⟨by decide,
   claim_chunked_matches_naive _ _ (by decide) (by decide) (by decide)⟩

/-- C4: the result record of a comparison satisfies
`diff_B ≤ comp_B`, `diff_b ≤ 8 * comp_B` and `comp_b = 8 * comp_B`
(the lower bounds `0 ≤ diff_B`, `0 ≤ diff_b` are automatic in `Nat`). -/
theorem claim_result_invariants (dc : Diffcount_ctl) (s1 s2 : List Nat)
    (hb1 : Bytes s1) (hb2 : Bytes s2) (hcv : dc.const_val < 256) :
    (diffcount_core dc s1 s2).diff_B ≤ (diffcount_core dc s1 s2).comp_B ∧
    (diffcount_core dc s1 s2).diff_b ≤ 8 * (diffcount_core dc s1 s2).comp_B ∧
    (diffcount_core dc s1 s2).comp_b = 8 * (diffcount_core dc s1 s2).comp_B := by
  cases hcm : dc.const_mode with
  | false =>
      rw [diffcount_core_spec_file dc s1 s2 hcm hb1 hb2]
      set n := remLen dc 0 s1 s2 with hn
      simp only [mkRes]
      have h1 : naive_diff_B (s1.take n) (s2.take n) ≤ (s1.take n).length :=
        naive_diff_B_le_length _ _
      have h2 : naive_diff_b (s1.take n) (s2.take n) ≤ 8 * (s1.take n).length :=
        naive_diff_b_le_8_length _ _ (Bytes_take _ _ hb1) (Bytes_take _ _ hb2)
      have h3 : (s1.take n).length ≤ n := by
        rw [List.length_take]
        omega
      refine ⟨by omega, by omega, trivial⟩
  | true =>
      rw [diffcount_core_spec_const dc s1 s2 hcm hb1 hcv]
      set n := remLen dc 0 s1 s2 with hn
      simp only [mkRes]
      have h1 : naive_diff_B (s1.take n) (List.replicate n dc.const_val) ≤
          (s1.take n).length := naive_diff_B_le_length _ _
      have h2 : naive_diff_b (s1.take n) (List.replicate n dc.const_val) ≤
          8 * (s1.take n).length :=
        naive_diff_b_le_8_length _ _ (Bytes_take _ _ hb1) (Bytes_replicate _ _ hcv)
      have h3 : (s1.take n).length ≤ n := by
        rw [List.length_take]
        omega
      refine ⟨by omega, by omega, trivial⟩

/-- A two-file, unbounded configuration used by concrete witnesses. -/
def dcFileW : Diffcount_ctl :=
  { fname_1 := "a", fname_2 := "b", seek_1 := 0, seek_2 := 0,
    max_len := 0, const_mode := false, const_val := 0 }

theorem claim_result_invariants_witness :
    Bytes [17, 4, 255] ∧
    ((diffcount_core dcFileW [17, 4, 255] [18, 4, 0]).diff_B ≤
       (diffcount_core dcFileW [17, 4, 255] [18, 4, 0]).comp_B ∧
     (diffcount_core dcFileW [17, 4, 255] [18, 4, 0]).diff_b ≤
       8 * (diffcount_core dcFileW [17, 4, 255] [18, 4, 0]).comp_B ∧
     (diffcount_core dcFileW [17, 4, 255] [18, 4, 0]).comp_b =
       8 * (diffcount_core dcFileW [17, 4, 255] [18, 4, 0]).comp_B) :=
  ⟨by decide,
   claim_result_invariants dcFileW _ _ (by decide) (by decide) (by decide)⟩

/-- C10: every differing byte contributes at least one and at most eight
differing bits, and equal bytes contribute none, so the result satisfies
`diff_B ≤ diff_b ≤ 8 * diff_B`. -/
theorem claim_diff_bits_bounds (dc : Diffcount_ctl) (s1 s2 : List Nat)
    (hb1 : Bytes s1) (hb2 : Bytes s2) (hcv : dc.const_val < 256) :
    (diffcount_core dc s1 s2).diff_B ≤ (diffcount_core dc s1 s2).diff_b ∧
    (diffcount_core dc s1 s2).diff_b ≤ 8 * (diffcount_core dc s1 s2).diff_B := by
  cases hcm : dc.const_mode with
  | false =>
      rw [diffcount_core_spec_file dc s1 s2 hcm hb1 hb2]
      simp only [mkRes]
      exact ⟨naive_diff_B_le_diff_b _ _,
        naive_diff_b_le_8_diff_B _ _ (Bytes_take _ _ hb1) (Bytes_take _ _ hb2)⟩
  | true =>
      rw [diffcount_core_spec_const dc s1 s2 hcm hb1 hcv]
      simp only [mkRes]
      exact ⟨naive_diff_B_le_diff_b _ _,
        naive_diff_b_le_8_diff_B _ _ (Bytes_take _ _ hb1) (Bytes_replicate _ _ hcv)⟩

theorem claim_diff_bits_bounds_witness :
    Bytes [9, 0, 128, 5] ∧
    ((diffcount_core dcFileW [9, 0, 128, 5] [9, 1, 127, 5]).diff_B ≤
       (diffcount_core dcFileW [9, 0, 128, 5] [9, 1, 127, 5]).diff_b ∧
     (diffcount_core dcFileW [9, 0, 128, 5] [9, 1, 127, 5]).diff_b ≤
       8 * (diffcount_core dcFileW [9, 0, 128, 5] [9, 1, 127, 5]).diff_B) :=
  ⟨by decide,
   claim_diff_bits_bounds dcFileW _ _ (by decide) (by decide) (by decide)⟩

/-- C6: comparing a byte sequence with itself (two-file mode, unbounded)
yields zero differing bytes and bits; comparing it with its bitwise
complement yields `length` differing bytes and `8 * length` differing
bits. -/
theorem claim_self_and_complement (dc : Diffcount_ctl) (l : List Nat)
    (hc : dc.const_mode = false) (hm : dc.max_len = 0) (hb : Bytes l) :
    ((diffcount_core dc l l).diff_B = 0 ∧ (diffcount_core dc l l).diff_b = 0) ∧
    ((diffcount_core dc l (l.map (fun b => b ^^^ 255))).diff_B = l.length ∧
     (diffcount_core dc l (l.map (fun b => b ^^^ 255))).diff_b = 8 * l.length) := by
  have hbmap : Bytes (l.map fun b => b ^^^ 255) := by
    intro b hb'
    rw [List.mem_map] at hb'
    obtain ⟨a, ha, rfl⟩ := hb'
    exact xor_lt_256 (hb a ha) (by norm_num)
  constructor
  · rw [diffcount_core_spec_file dc l l hc hb hb]
    have hN : remLen dc 0 l l = l.length := by
      simp [remLen, hc, hm]
    rw [hN]
    simp only [mkRes, List.take_length]
    exact ⟨naive_diff_B_self l, naive_diff_b_self l⟩
  · rw [diffcount_core_spec_file dc l _ hc hb hbmap]
    have hN : remLen dc 0 l (l.map fun b => b ^^^ 255) = l.length := by
      simp [remLen, hc, hm, List.length_map]
    rw [hN]
    have htk : (l.map fun b => b ^^^ 255).take l.length = l.map fun b => b ^^^ 255 := by
      apply List.take_of_length_le
      rw [List.length_map]
    simp only [mkRes, List.take_length, htk]
    exact ⟨naive_diff_B_complement l, naive_diff_b_complement l⟩

theorem claim_self_and_complement_witness :
    Bytes [0, 200, 3] ∧
    (((diffcount_core dcFileW [0, 200, 3] [0, 200, 3]).diff_B = 0 ∧
      (diffcount_core dcFileW [0, 200, 3] [0, 200, 3]).diff_b = 0) ∧
     ((diffcount_core dcFileW [0, 200, 3]
         ([0, 200, 3].map (fun b => b ^^^ 255))).diff_B = 3 ∧
      (diffcount_core dcFileW [0, 200, 3]
         ([0, 200, 3].map (fun b => b ^^^ 255))).diff_b = 24)) :=
  ⟨by decide,
   claim_self_and_complement dcFileW [0, 200, 3] rfl rfl (by decide)⟩

/-- C2: in two-file mode with no bound configured, a successful run returns a
result (no length-mismatch error exists), each round's usable length is the
minimum of the byte counts read from the two streams, and the final
`comp_B` is the minimum of the two sources' effective (post-seek) lengths. -/
theorem claim_twofile_min_length (env : Env) (dc : Diffcount_ctl)
    (f1 f2 : List Nat) (hc : dc.const_mode = false) (hm : dc.max_len = 0)
    (h1 : env.files dc.fname_1 = some f1)
    (hs1 : env.seek_ok dc.fname_1 dc.seek_1 = true)
    (h2 : env.files dc.fname_2 = some f2)
    (hs2 : env.seek_ok dc.fname_2 dc.seek_2 = true)
    (hb1 : Bytes f1) (hb2 : Bytes f2) :
    (∀ s1 s2 c, (fill_buffers dc s1 s2 c).buf_fill =
        min (fill_buffers dc s1 s2 c).buf_1.length
            (fill_buffers dc s1 s2 c).buf_2.length) ∧
    diffcount env dc =
      Except.ok (diffcount_core dc (f1.drop dc.seek_1) (f2.drop dc.seek_2)) ∧
    (diffcount_core dc (f1.drop dc.seek_1) (f2.drop dc.seek_2)).comp_B =
      min (f1.length - dc.seek_1) (f2.length - dc.seek_2) := by
  refine ⟨?_, ?_, ?_⟩
  · intro s1 s2 c
    simp [fill_buffers, hc]
  · simp [diffcount, fopen_and_seek, h1, h2, hs1, hs2, hc]
  · rw [diffcount_core_spec_file dc _ _ hc (Bytes_drop _ _ hb1) (Bytes_drop _ _ hb2)]
    simp [mkRes, remLen, hc, hm, List.length_drop]

/-- The environment used by the C2 witness: a 10-byte file and a 6-byte
file, every seek succeeding. -/
def envC2 : Env :=
  { files := fun n =>
      if n = "a" then some [1, 2, 3, 4, 5, 6, 7, 8, 9, 10]
      else if n = "b" then some [1, 2, 3, 9, 9, 9]
      else none,
    seek_ok := fun _ _ => true }

theorem claim_twofile_min_length_witness :
    diffcount envC2 dcFileW =
      Except.ok (diffcount_core dcFileW
        ([1, 2, 3, 4, 5, 6, 7, 8, 9, 10].drop dcFileW.seek_1)
        ([1, 2, 3, 9, 9, 9].drop dcFileW.seek_2)) ∧
    (diffcount_core dcFileW
        ([1, 2, 3, 4, 5, 6, 7, 8, 9, 10].drop dcFileW.seek_1)
        ([1, 2, 3, 9, 9, 9].drop dcFileW.seek_2)).comp_B = 6 := by
  have h := claim_twofile_min_length envC2 dcFileW
    [1, 2, 3, 4, 5, 6, 7, 8, 9, 10] [1, 2, 3, 9, 9, 9]
    rfl rfl (by decide) rfl (by decide) rfl (by decide) (by decide)
  refine ⟨h.2.1, ?_⟩
  rw [h.2.2]
  decide

/-- C3: when a max length is configured (nonzero), each round's read size is
`min(BUFSIZE, max_len - bytes_compared)`; otherwise it is `BUFSIZE`; and in
two-file mode a nonzero bound caps `comp_B` at
`min(max_len, min(len1, len2))` — in particular two 100-byte identical
sources with bound 40 compare exactly 40 bytes. -/
theorem claim_read_size_and_bound (dc : Diffcount_ctl) :
    (∀ c, dc.max_len ≠ 0 →
        read_size dc.max_len c = min BUFSIZE (dc.max_len - c)) ∧
    (∀ c, dc.max_len = 0 → read_size dc.max_len c = BUFSIZE) ∧
    (∀ s1 s2 : List Nat, dc.const_mode = false → dc.max_len ≠ 0 →
        Bytes s1 → Bytes s2 →
        (diffcount_core dc s1 s2).comp_B =
          min dc.max_len (min s1.length s2.length)) := by
  refine ⟨?_, ?_, ?_⟩
  · intro c h0
    rw [read_size_eq]
    simp [h0]
  · intro c h0
    rw [read_size_eq]
    simp [h0]
  · intro s1 s2 hc h0 hb1 hb2
    rw [diffcount_core_spec_file dc s1 s2 hc hb1 hb2]
    simp [mkRes, remLen, hc, h0]

/-- The bounded configuration used by the C3 witness. -/
def dcBound40 : Diffcount_ctl :=
  { fname_1 := "a", fname_2 := "b", seek_1 := 0, seek_2 := 0,
    max_len := 40, const_mode := false, const_val := 0 }

theorem claim_read_size_and_bound_witness :
    (diffcount_core dcBound40
      (List.replicate 100 7) (List.replicate 100 7)).comp_B = 40 := by
  have h := (claim_read_size_and_bound dcBound40).2.2
    (List.replicate 100 7) (List.replicate 100 7)
    rfl (by decide) (by decide) (by decide)
  rw [h]
  decide

/-- C5: in constant mode the round's usable length is whatever was read from
source A, buffer 2 provides the repeated constant byte and stream 2 is
never read, and the comparison equals a byte-by-byte comparison of
source A against the repeated constant. -/
theorem claim_const_mode_semantics (dc : Diffcount_ctl) (s1 s2 : List Nat)
    (hc : dc.const_mode = true) (hb1 : Bytes s1) (hcv : dc.const_val < 256) :
    (∀ t1 t2 c, (fill_buffers dc t1 t2 c).buf_fill =
        (fill_buffers dc t1 t2 c).buf_1.length ∧
      (fill_buffers dc t1 t2 c).buf_2 =
        List.replicate (fill_buffers dc t1 t2 c).buf_fill dc.const_val ∧
      (fill_buffers dc t1 t2 c).stream_2 = t2) ∧
    diffcount_core dc s1 s2 =
      mkRes (remLen dc 0 s1 s2)
        (naive_diff_B (s1.take (remLen dc 0 s1 s2))
          (List.replicate (remLen dc 0 s1 s2) dc.const_val))
        (naive_diff_b (s1.take (remLen dc 0 s1 s2))
          (List.replicate (remLen dc 0 s1 s2) dc.const_val)) := by
  refine ⟨?_, diffcount_core_spec_const dc s1 s2 hc hb1 hcv⟩
  intro t1 t2 c
  refine ⟨?_, ?_, ?_⟩ <;> simp [fill_buffers, hc]

/-- The constant-mode configuration of the C5 witness: constant `0x0f`. -/
def dcConst0F : Diffcount_ctl :=
  { fname_1 := "a", fname_2 := "", seek_1 := 0, seek_2 := 0,
    max_len := 0, const_mode := true, const_val := 0x0f }

theorem claim_const_mode_semantics_witness :
    Bytes [255, 255, 255, 255, 255] ∧
    (diffcount_core dcConst0F [255, 255, 255, 255, 255] []).diff_B = 5 ∧
    (diffcount_core dcConst0F [255, 255, 255, 255, 255] []).diff_b = 20 := by
  have h := (claim_const_mode_semantics dcConst0F [255, 255, 255, 255, 255] []
    rfl (by decide) (by decide)).2
  refine ⟨by decide, ?_, ?_⟩ <;> rw [h] <;> decide

/-- C7, counterexample: in the code `max_len == 0` means *unbounded*
("Go to first EOF if zero", diffcount.c lines 40-41), so a comparison
configured with a max length of 0 over nonempty sources does NOT yield
`comp_B = 0`: here it compares 1 byte. -/
theorem claim_maxlen_zero_counterexample :
    ¬ ((diffcount_core dcFileW [1] [2]).comp_B = 0) := by decide

/-- C7, amended: a source that is already at end-of-stream at its starting
offset yields `comp_B = 0`; a configured max length of 0 means unbounded
(compare until first exhaustion), not an empty comparison. -/
theorem claim_empty_sources_comp_zero (dc : Diffcount_ctl) (f1 f2 : List Nat)
    (h : f1.length ≤ dc.seek_1 ∨
         (dc.const_mode = false ∧ f2.length ≤ dc.seek_2)) :
    (diffcount_core dc (f1.drop dc.seek_1) (f2.drop dc.seek_2)).comp_B = 0 := by
  have hfill :
      (fill_buffers dc (f1.drop dc.seek_1) (f2.drop dc.seek_2) 0).buf_fill = 0 := by
    cases hcm : dc.const_mode with
    | true =>
        rcases h with h | ⟨hfalse, _⟩
        · simp only [fill_buffers, hcm, if_true, List.length_take, List.length_drop]
          omega
        · rw [hcm] at hfalse
          cases hfalse
    | false =>
        rcases h with h | ⟨_, h⟩ <;>
          · simp only [fill_buffers, hcm, Bool.false_eq_true, if_false,
              List.length_take, List.length_drop]
            omega
  unfold diffcount_core
  simp only [diffcount_loop, hfill, if_pos]
  rfl

/-- A configuration whose first seek offset lies past the end of the
2-byte witness file. -/
def dcSeekPastEnd : Diffcount_ctl :=
  { fname_1 := "a", fname_2 := "b", seek_1 := 5, seek_2 := 0,
    max_len := 0, const_mode := false, const_val := 0 }

theorem claim_empty_sources_comp_zero_witness :
    [5, 6].length ≤ dcSeekPastEnd.seek_1 ∧
    (diffcount_core dcSeekPastEnd ([5, 6].drop dcSeekPastEnd.seek_1)
      ([9].drop dcSeekPastEnd.seek_2)).comp_B = 0 :=
  ⟨by decide, claim_empty_sources_comp_zero dcSeekPastEnd [5, 6] [9]
    (Or.inl (by decide))⟩

/-- C8: failure to open a real source, or failure of the initial seek to its
starting offset, makes the whole operation return an error: no result
record is produced and no comparison occurs. -/
theorem claim_open_seek_failure_aborts (env : Env) (dc : Diffcount_ctl)
    (h : env.files dc.fname_1 = none ∨
         env.seek_ok dc.fname_1 dc.seek_1 = false ∨
         (dc.const_mode = false ∧
           (env.files dc.fname_2 = none ∨
            env.seek_ok dc.fname_2 dc.seek_2 = false))) :
    ∃ e, diffcount env dc = Except.error e := by
  rcases h with h | h | ⟨hc, h2⟩
  · exact ⟨DiffErr.fopenFailed dc.fname_1, by simp [diffcount, fopen_and_seek, h]⟩
  · cases hfile : env.files dc.fname_1 with
    | none =>
        exact ⟨DiffErr.fopenFailed dc.fname_1,
          by simp [diffcount, fopen_and_seek, hfile]⟩
    | some f =>
        exact ⟨DiffErr.fseekFailed dc.fname_1,
          by simp [diffcount, fopen_and_seek, hfile, h]⟩
  · cases hfile : env.files dc.fname_1 with
    | none =>
        exact ⟨DiffErr.fopenFailed dc.fname_1,
          by simp [diffcount, fopen_and_seek, hfile]⟩
    | some f =>
        cases hseek : env.seek_ok dc.fname_1 dc.seek_1 with
        | false =>
            exact ⟨DiffErr.fseekFailed dc.fname_1,
              by simp [diffcount, fopen_and_seek, hfile, hseek]⟩
        | true =>
            rcases h2 with h2 | h2
            · cases hfile2 : env.files dc.fname_2 with
              | none =>
                  exact ⟨DiffErr.fopenFailed dc.fname_2, by
                    simp [diffcount, fopen_and_seek, hfile, hseek, hc, hfile2]⟩
              | some g =>
                  rw [hfile2] at h2
                  cases h2
            · cases hfile2 : env.files dc.fname_2 with
              | none =>
                  exact ⟨DiffErr.fopenFailed dc.fname_2, by
                    simp [diffcount, fopen_and_seek, hfile, hseek, hc, hfile2]⟩
              | some g =>
                  exact ⟨DiffErr.fseekFailed dc.fname_2, by
                    simp [diffcount, fopen_and_seek, hfile, hseek, hc, hfile2, h2]⟩

/-- An environment in which no path opens. -/
def envNoFiles : Env :=
  { files := fun _ => none, seek_ok := fun _ _ => true }

theorem claim_open_seek_failure_aborts_witness :
    envNoFiles.files dcFileW.fname_1 = none ∧
    ∃ e, diffcount envNoFiles dcFileW = Except.error e :=
  ⟨rfl, claim_open_seek_failure_aborts envNoFiles dcFileW (Or.inl rfl)⟩

theorem diffcount_loop_congr (dc1 dc2 : Diffcount_ctl)
    (hml : dc1.max_len = dc2.max_len) (hcm : dc1.const_mode = dc2.const_mode)
    (hcv : dc1.const_val = dc2.const_val) :
    ∀ fuel s1 s2 c dB db,
      diffcount_loop dc1 fuel s1 s2 c dB db =
        diffcount_loop dc2 fuel s1 s2 c dB db := by
  have hfb : ∀ s1 s2 c, fill_buffers dc1 s1 s2 c = fill_buffers dc2 s1 s2 c := by
    intro s1 s2 c
    simp [fill_buffers, read_size, hml, hcm, hcv]
  intro fuel
  induction fuel with
  | zero => intro s1 s2 c dB db; rfl
  | succ fuel ih =>
      intro s1 s2 c dB db
      simp only [diffcount_loop, hfb]
      by_cases hf : (fill_buffers dc2 s1 s2 c).buf_fill = 0
      · rw [if_pos hf, if_pos hf]
      · rw [if_neg hf, if_neg hf, ih]

/-- C9: in constant mode the result is independent of the second source
descriptor: two configurations differing only in `fname_2` and `seek_2`
produce identical outcomes in every environment. -/
theorem claim_const_ignores_second_source (env : Env) (dc1 dc2 : Diffcount_ctl)
    (hc1 : dc1.const_mode = true) (hc2 : dc2.const_mode = true)
    (hf : dc1.fname_1 = dc2.fname_1) (hs : dc1.seek_1 = dc2.seek_1)
    (hml : dc1.max_len = dc2.max_len) (hcv : dc1.const_val = dc2.const_val) :
    diffcount env dc1 = diffcount env dc2 := by
  unfold diffcount
  rw [hf, hs]
  cases h : fopen_and_seek env dc2.fname_1 dc2.seek_1 with
  | error e => rfl
  | ok s1 =>
      simp only [hc1, hc2, if_true]
      unfold diffcount_core
      rw [diffcount_loop_congr dc1 dc2 hml (by rw [hc1, hc2]) hcv]

/-- Two constant-mode configurations differing only in the second filename
and seek, for the C9 witness. -/
def dcConstA : Diffcount_ctl :=
  { fname_1 := "a", fname_2 := "x", seek_1 := 1, seek_2 := 7,
    max_len := 0, const_mode := true, const_val := 3 }

def dcConstB : Diffcount_ctl :=
  { fname_1 := "a", fname_2 := "y", seek_1 := 1, seek_2 := 99,
    max_len := 0, const_mode := true, const_val := 3 }

theorem claim_const_ignores_second_source_witness :
    dcConstA.fname_2 ≠ dcConstB.fname_2 ∧ dcConstA.seek_2 ≠ dcConstB.seek_2 ∧
    diffcount envC2 dcConstA = diffcount envC2 dcConstB :=
  ⟨by decide, by decide,
   claim_const_ignores_second_source envC2 dcConstA dcConstB
     rfl rfl rfl rfl rfl rfl⟩
